import Mathlib

/-!
Verification of the office_find_item search core.

Strings of the Go source are modelled at rune level as List Char:
every byte index manipulated by the source (strings.Index results,
moveLeftRunes / moveRightRunes / tailRunes arithmetic) lands on a UTF-8
rune boundary when the inputs are valid UTF-8, because a byte-level match
of a valid UTF-8 needle inside valid UTF-8 text always starts and ends on
rune boundaries, and the move functions step over whole runes.  The cache
truncation function truncateUTF8ToBytes is genuinely byte-oriented and is
modelled on byte lists instead.
-/

namespace OFind

/-- Rune-level model of a Go string. -/
abbrev Str := List Char

/-- Substring s[a:b] of a rune list (clamped, like Go slicing of valid indices). -/
def slice (s : Str) (a b : Nat) : Str := (s.take b).drop a

/-- Rune-level model of strings.Index: index of the first occurrence of q in
hay, or none.  Go returns a byte offset; on valid UTF-8 that offset is the
byte position of this rune index. -/
def firstIdx? (q : Str) : Str → Option Nat
  | [] => if q = [] then some 0 else none
  | c :: t => if q <+: (c :: t) then some 0 else (firstIdx? q t).map (· + 1)

/-- q occurs in T at rune offset i. -/
def occursAt (T q : Str) (i : Nat) : Prop := q <+: T.drop i

instance (T q : Str) (i : Nat) : Decidable (occursAt T q i) := by
  unfold occursAt; infer_instance

/-- Opening highlight bracket written by the snippet builders. -/
def bracketL : Char := '【'

/-- Closing highlight bracket written by the snippet builders. -/
def bracketR : Char := '】'

/-- Model of moveLeftRunes (src/unnamed/part_002 lines 54-68): clamp the
start position into the string, then step left over at most n runes. -/
def moveLeftRunes (s : Str) (fromIdx n : Nat) : Nat := min fromIdx s.length - n

/-- Model of moveRightRunes (src/unnamed/part_002 lines 70-83): clamp the
start position into the string, then step right over at most n runes. -/
def moveRightRunes (s : Str) (fromIdx n : Nat) : Nat :=
  min (min fromIdx s.length + n) s.length

/-- One snippet as assembled by the strings.Builder blocks of FindSnippets,
streamFindFirst and streamFindSnippets: left context, 【, the match,
】, right context. -/
def snippetAt (text q : Str) (C : Nat) (matchStart : Nat) : Str :=
  let matchEnd := matchStart + q.length
  let start := moveLeftRunes text matchStart C
  let stop := moveRightRunes text matchEnd C
  slice text start matchStart ++ [bracketL] ++ slice text matchStart matchEnd
    ++ [bracketR] ++ slice text matchEnd stop

/-- The search loop of FindSnippets (src/unnamed/part_002 lines 23-50).
The Go loop runs while len(snips) < maxSnippets and searchFrom <= len(text);
rem is the number of snippets still allowed, which strictly decreases at
every iteration that appends a snippet. -/
def findSnippetsLoop (text q : Str) (C : Nat) : Nat → Nat → List Str
  | 0, _ => []
  | rem + 1, searchFrom =>
    if searchFrom ≤ text.length then
      match firstIdx? q (text.drop searchFrom) with
      | none => []
      | some idx =>
        let matchStart := searchFrom + idx
        let matchEnd := matchStart + q.length
        snippetAt text q C matchStart ::
          findSnippetsLoop text q C rem
            (if matchEnd ≤ searchFrom then searchFrom + 1 else matchEnd)
    else []

/-- Model of FindSnippets (src/unnamed/part_002 lines 10-52): normalize
maxSnippets and contextLen exactly as the source does, return nil for an
empty query or empty text, otherwise run the search loop from offset 0. -/
def FindSnippets (text query : Str) (contextLen maxSnippets : Int) : List Str :=
  let ms : Int := if maxSnippets ≤ 0 then 1 else maxSnippets
  let C : Int := if contextLen < 0 then 0 else contextLen
  if query = [] ∨ text = [] then []
  else findSnippetsLoop text query C.toNat ms.toNat 0

section FirstIdxLemmas

theorem firstIdx?_some_occurs {q hay : Str} {i : Nat}
    (h : firstIdx? q hay = some i) : q <+: hay.drop i := by
  induction hay generalizing i with
  | nil =>
    unfold firstIdx? at h
    split at h
    · simp_all
    · simp_all
  | cons c t ih =>
    unfold firstIdx? at h
    split at h
    · rename_i hp
      have : i = 0 := by simpa using h.symm
      subst this
      simpa using hp
    · cases hfi : firstIdx? q t with
      | none => simp [hfi] at h
      | some j =>
        simp only [hfi, Option.map_some'] at h
        have hij : j + 1 = i := by simpa using h
        subst hij
        simpa using ih hfi

theorem firstIdx?_some_min {q hay : Str} {i : Nat}
    (h : firstIdx? q hay = some i) : ∀ j < i, ¬ q <+: hay.drop j := by
  induction hay generalizing i with
  | nil =>
    unfold firstIdx? at h
    split at h
    · have : i = 0 := by simpa using h.symm
      subst this
      intro j hj
      omega
    · simp_all
  | cons c t ih =>
    unfold firstIdx? at h
    split at h
    · rename_i hp
      have : i = 0 := by simpa using h.symm
      subst this
      intro j hj
      omega
    · rename_i hp
      cases hfi : firstIdx? q t with
      | none => simp [hfi] at h
      | some k =>
        simp only [hfi, Option.map_some'] at h
        have hik : k + 1 = i := by simpa using h
        subst hik
        intro j hj
        cases j with
        | zero => simpa using hp
        | succ j =>
          have := ih hfi j (by omega)
          simpa using this

theorem firstIdx?_none {q hay : Str}
    (h : firstIdx? q hay = none) : ∀ j, ¬ q <+: hay.drop j := by
  induction hay with
  | nil =>
    unfold firstIdx? at h
    split at h
    · simp_all
    · rename_i hq
      intro j hpre
      exact hq (List.prefix_nil.mp (by simpa using hpre))
  | cons c t ih =>
    unfold firstIdx? at h
    split at h
    · simp_all
    · rename_i hp
      cases hfi : firstIdx? q t with
      | none =>
        intro j
        cases j with
        | zero => simpa using hp
        | succ j => simpa using ih hfi j
      | some k => simp [hfi] at h

theorem firstIdx?_isSome_of_occurs {q hay : Str} {j : Nat}
    (h : q <+: hay.drop j) : (firstIdx? q hay).isSome := by
  cases hfi : firstIdx? q hay with
  | none => exact absurd h (firstIdx?_none hfi j)
  | some i => rfl

/-- Characterization: firstIdx? returns exactly the least occurrence index. -/
theorem firstIdx?_eq_some_of_first {q hay : Str} {i : Nat}
    (hocc : q <+: hay.drop i) (hmin : ∀ j < i, ¬ q <+: hay.drop j) :
    firstIdx? q hay = some i := by
  cases hfi : firstIdx? q hay with
  | none => exact absurd hocc (firstIdx?_none hfi i)
  | some k =>
    have hk := firstIdx?_some_occurs hfi
    have hkmin := firstIdx?_some_min hfi
    rcases Nat.lt_trichotomy k i with h | h | h
    · exact absurd hk (hmin k h)
    · simp [h]
    · exact absurd hocc (hkmin i h)

theorem length_le_of_prefix_drop {q hay : Str} {i : Nat}
    (hq : q ≠ []) (h : q <+: hay.drop i) : i + q.length ≤ hay.length := by
  have h1 := h.length_le
  have h2 := List.length_drop i hay
  have h3 : 1 ≤ q.length := List.length_pos.mpr hq
  omega

end FirstIdxLemmas

section SliceLemmas

theorem slice_eq_drop_take (s : Str) (a n : Nat) :
    slice s a (a + n) = (s.drop a).take n := by
  simp [slice, List.drop_take]

theorem take_min_length_sub (s : Str) (a C : Nat) (h : a ≤ s.length) :
    (s.drop a).take (min (a + C) s.length - a) = (s.drop a).take C := by
  rw [List.take_eq_take]
  simp only [List.length_drop]
  omega

end SliceLemmas

/-- C2: for a non-empty query occurring first at rune offset i, the single-shot
matcher FindSnippets with maxSnippets = 1 returns exactly one snippet: the C
runes of T before the occurrence, the occurrence wrapped in 【 and 】, and the
C runes after it, clamped at both ends of T. -/
theorem findSnippets_first_occurrence (T q : Str) (C i : Nat)
    (hq : q ≠ []) (hocc : occursAt T q i) (hmin : ∀ j < i, ¬ occursAt T q j) :
    FindSnippets T q (C : Int) 1 =
      [((T.take i).drop (i - C)) ++ [bracketL] ++ ((T.drop i).take q.length)
        ++ [bracketR] ++ ((T.drop (i + q.length)).take C)] := by
  have hfi : firstIdx? q T = some i := firstIdx?_eq_some_of_first hocc hmin
  have hlen : i + q.length ≤ T.length := length_le_of_prefix_drop hq hocc
  have hqpos : 1 ≤ q.length := List.length_pos.mpr hq
  have hT : T ≠ [] := by
    intro h
    subst h
    simp only [List.length_nil] at hlen
    omega
  unfold FindSnippets
  simp only [hq, hT, or_self, if_false]
  have hC : ¬ ((C : Int) < 0) := by omega
  simp only [if_neg hC, if_neg (by norm_num : ¬ ((1:Int) ≤ 0)), Int.toNat_one,
    Int.toNat_natCast]
  unfold findSnippetsLoop
  simp only [Nat.zero_le, if_pos, List.drop_zero, hfi]
  unfold findSnippetsLoop
  simp only [Nat.zero_add]
  have hi : min i T.length = i := by omega
  have hie : min (i + q.length) T.length = i + q.length := by omega
  unfold snippetAt moveLeftRunes moveRightRunes
  simp only [hi, hie]
  congr 1
  have h1 : slice T (i - C) i = (T.take i).drop (i - C) := by
    simp [slice]
  have h2 : slice T i (i + q.length) = (T.drop i).take q.length :=
    slice_eq_drop_take T i q.length
  have h3 : slice T (i + q.length) (min (i + q.length + C) T.length) =
      (T.drop (i + q.length)).take C := by
    unfold slice
    rw [List.drop_take]
    exact take_min_length_sub T (i + q.length) C hlen
  rw [h1, h2, h3]

/-- Witness for C2 at a concrete input. -/
theorem findSnippets_first_occurrence_witness :
    FindSnippets ("recent invoice 2024").toList ("invoice").toList ((5 : Nat) : Int) 1 =
      [(("recent invoice 2024").toList.take 7).drop (7 - 5) ++ [bracketL]
        ++ ((("recent invoice 2024").toList.drop 7).take 7) ++ [bracketR]
        ++ ((("recent invoice 2024").toList.drop 14).take 5)] := by
  exact findSnippets_first_occurrence ("recent invoice 2024").toList
    ("invoice").toList 5 7 (by decide) (by decide) (by decide)

/-! Byte-level model of the cache truncation (src/internal/cache/cache.go) -/

/-- Model of utf8.RuneStart: a byte starts a rune unless it is a UTF-8
continuation byte 10xxxxxx. -/
def runeStart (b : Nat) : Bool := !(b &&& 192 == 128)

/-- The backward scan of truncateUTF8ToBytes (cache.go lines 34-38): move
cut left while it is inside the string and sits on a continuation byte. -/
def cutBack (s : List Nat) : Nat → Nat
  | 0 => 0
  | cut + 1 =>
    if cut + 1 < s.length ∧ runeStart (s.getD (cut + 1) 0) = false then cutBack s cut
    else cut + 1

/-- Model of truncateUTF8ToBytes (cache.go lines 30-43), on byte lists.
cut is the value of the Go local cut after the backward loop. -/
def truncateUTF8ToBytes (s : List Nat) (maxBytes : Int) : List Nat :=
  if maxBytes ≤ 0 ∨ (s.length : Int) ≤ maxBytes then s
  else if cutBack s maxBytes.toNat = 0 then [] else s.take (cutBack s maxBytes.toNat)

/-- A well-formed UTF-8 code-point block: a start byte followed by
continuation bytes only. -/
def blockWF (b : List Nat) : Prop :=
  b ≠ [] ∧ runeStart (b.headD 0) = true ∧ ∀ x ∈ b.tail, runeStart x = false

instance : DecidablePred blockWF := fun b => by
  unfold blockWF
  infer_instance

/-- Specification-side greedy fit: the longest sequence of leading whole
code-point blocks whose total byte length is at most m. -/
def fitBlocks : List (List Nat) → Nat → List (List Nat)
  | [], _ => []
  | b :: bs, m => if b.length ≤ m then b :: fitBlocks bs (m - b.length) else []

/-- Position p is a code-point boundary of the block decomposition. -/
def IsBoundary (bs : List (List Nat)) (p : Nat) : Prop :=
  ∃ k, ((bs.take k).flatten).length = p

section TruncateLemmas

theorem fitBlocks_len_le (bs : List (List Nat)) (m : Nat) :
    ((fitBlocks bs m).flatten).length ≤ m := by
  induction bs generalizing m with
  | nil => simp [fitBlocks]
  | cons b bs ih =>
    unfold fitBlocks
    split
    · rename_i h
      have := ih (m - b.length)
      simp only [List.flatten_cons, List.length_append]
      omega
    · simp

theorem fitBlocks_eq_take (bs : List (List Nat)) (m : Nat) :
    ∃ k, k ≤ bs.length ∧ fitBlocks bs m = bs.take k := by
  induction bs generalizing m with
  | nil => exact ⟨0, by simp [fitBlocks]⟩
  | cons b bs ih =>
    unfold fitBlocks
    split
    · obtain ⟨k, hk, hrest⟩ := ih (m - b.length)
      exact ⟨k + 1, by simpa using hk, by simp [hrest]⟩
    · exact ⟨0, by simp⟩

theorem fitBlocks_maximal (bs : List (List Nat)) (m : Nat) :
    ∀ j, ((bs.take j).flatten).length ≤ m →
      ((bs.take j).flatten).length ≤ ((fitBlocks bs m).flatten).length := by
  induction bs generalizing m with
  | nil => intro j _; simp
  | cons b bs ih =>
    intro j hj
    cases j with
    | zero => simp
    | succ j =>
      simp only [List.take_succ_cons, List.flatten_cons, List.length_append] at hj ⊢
      have hb : b.length ≤ m := by omega
      unfold fitBlocks
      rw [if_pos hb]
      simp only [List.flatten_cons, List.length_append]
      have := ih (m - b.length) j (by omega)
      omega

theorem fitBlocks_total (bs : List (List Nat)) (m : Nat)
    (h : (bs.flatten).length ≤ m) : fitBlocks bs m = bs := by
  induction bs generalizing m with
  | nil => simp [fitBlocks]
  | cons b bs ih =>
    simp only [List.flatten_cons, List.length_append] at h
    unfold fitBlocks
    rw [if_pos (by omega)]
    rw [ih (m - b.length) (by omega)]

/-- In a well-formed block decomposition, a position carries a start byte
exactly when it is a block boundary. -/
theorem runeStart_iff_boundary (bs : List (List Nat))
    (hwf : ∀ b ∈ bs, blockWF b) (p : Nat) (hp : p < (bs.flatten).length) :
    runeStart ((bs.flatten).getD p 0) = true ↔ IsBoundary bs p := by
  induction bs generalizing p with
  | nil => simp at hp
  | cons b bs ih =>
    obtain ⟨hbne, hbh, hbt⟩ := hwf b (by simp)
    have hwf' : ∀ x ∈ bs, blockWF x := fun x hx => hwf x (by simp [hx])
    have hbpos : 1 ≤ b.length := List.length_pos.mpr hbne
    by_cases hcase : p < b.length
    · have hget : ((b :: bs).flatten).getD p 0 = b.getD p 0 := by
        simp only [List.flatten_cons]
        exact List.getD_append _ _ _ _ hcase
      rw [hget]
      cases hb0 : b with
      | nil => exact absurd hb0 hbne
      | cons h t =>
        subst hb0
        cases p with
        | zero =>
          simp only [List.getD_cons_zero]
          constructor
          · intro _; exact ⟨0, by simp⟩
          · intro _
            simpa using hbh
        | succ p =>
          have hplt : p < t.length := by
            simp only [List.length_cons] at hcase
            omega
          have hmem : t.getD p 0 ∈ t := by
            rw [List.getD_eq_getElem t 0 hplt]
            exact List.getElem_mem hplt
          have hfalse : runeStart (t.getD p 0) = false := hbt _ (by simpa using hmem)
          simp only [List.getD_cons_succ, hfalse]
          constructor
          · intro h; cases h
          · rintro ⟨k, hk⟩
            cases k with
            | zero => simp at hk
            | succ k =>
              simp only [List.take_succ_cons, List.flatten_cons,
                List.length_append, List.length_cons] at hk
              simp only [List.length_cons] at hcase
              omega
    · push_neg at hcase
      have hget : ((b :: bs).flatten).getD p 0 = (bs.flatten).getD (p - b.length) 0 := by
        simp only [List.flatten_cons]
        exact List.getD_append_right _ _ _ _ hcase
      have hp' : p - b.length < (bs.flatten).length := by
        simp only [List.flatten_cons, List.length_append] at hp
        omega
      rw [hget, ih hwf' _ hp']
      constructor
      · rintro ⟨k, hk⟩
        exact ⟨k + 1, by simp only [List.take_succ_cons, List.flatten_cons,
          List.length_append]; omega⟩
      · rintro ⟨k, hk⟩
        cases k with
        | zero =>
          simp only [List.take_zero, List.flatten_nil, List.length_nil] at hk
          omega
        | succ k =>
          refine ⟨k, ?_⟩
          simp only [List.take_succ_cons, List.flatten_cons, List.length_append] at hk
          omega

/-- cutBack descends from start to the target position tgt when every
position strictly between carries a continuation byte and tgt itself is 0 or
a start byte. -/
theorem cutBack_eq (s : List Nat) (tgt : Nat) :
    ∀ start, tgt ≤ start →
    (∀ p, tgt < p → p ≤ start → p < s.length ∧ runeStart (s.getD p 0) = false) →
    (tgt = 0 ∨ (tgt < s.length ∧ runeStart (s.getD tgt 0) = true)) →
    cutBack s start = tgt := by
  intro start
  induction start with
  | zero =>
    intro h _ _
    unfold cutBack
    omega
  | succ c ih =>
    intro hts hmid htgt
    by_cases hc : tgt = c + 1
    · subst hc
      unfold cutBack
      rw [if_neg]
      rcases htgt with h0 | ⟨_, hstart⟩
      · omega
      · rintro ⟨_, hfalse⟩
        rw [hstart] at hfalse
        cases hfalse
    · have hlt : tgt ≤ c := by omega
      have hmid1 := hmid (c + 1) (by omega) (by omega)
      unfold cutBack
      rw [if_pos ⟨hmid1.1, hmid1.2⟩]
      exact ih hlt (fun p hp1 hp2 => hmid p hp1 (by omega)) htgt

end TruncateLemmas

/-- C8: truncateUTF8ToBytes is code-point safe.  Concretely, truncating the
bytes of 你a (E4 BD A0 61) to 1 byte yields the empty string, to 3 bytes
yields 你, and to 4 bytes yields 你a.  In general, for any well-formed UTF-8
block decomposition and any positive byte budget, the function returns the
bytes of the longest prefix of whole code points that fits in the budget:
that prefix fits, is a prefix of the input ending on a rune boundary, and
every code-point-boundary prefix fitting the budget is no longer than it. -/
theorem truncateUTF8_codepoint_safe :
    (truncateUTF8ToBytes [228, 189, 160, 97] 1 = []
      ∧ truncateUTF8ToBytes [228, 189, 160, 97] 3 = [228, 189, 160]
      ∧ truncateUTF8ToBytes [228, 189, 160, 97] 4 = [228, 189, 160, 97])
    ∧ ∀ (bs : List (List Nat)) (m : Int),
        (∀ b ∈ bs, blockWF b) → 1 ≤ m →
        truncateUTF8ToBytes bs.flatten m = (fitBlocks bs m.toNat).flatten
        ∧ ((fitBlocks bs m.toNat).flatten).length ≤ m.toNat
        ∧ (fitBlocks bs m.toNat).flatten <+: bs.flatten
        ∧ ∀ j, ((bs.take j).flatten).length ≤ m.toNat →
            ((bs.take j).flatten).length ≤ ((fitBlocks bs m.toNat).flatten).length := by
  constructor
  · exact ⟨by decide, by decide, by decide⟩
  · intro bs m hwf hm
    obtain ⟨k, hkle, hktake⟩ := fitBlocks_eq_take bs m.toNat
    have hpre : (fitBlocks bs m.toNat).flatten <+: bs.flatten := by
      rw [hktake]
      calc (bs.take k).flatten <+: (bs.take k).flatten ++ (bs.drop k).flatten :=
            List.prefix_append _ _
        _ = bs.flatten := by rw [← List.flatten_append, List.take_append_drop]
    refine ⟨?_, fitBlocks_len_le bs m.toNat, hpre, fitBlocks_maximal bs m.toNat⟩
    unfold truncateUTF8ToBytes
    by_cases htot : ((bs.flatten).length : Int) ≤ m
    · rw [if_pos (Or.inr htot)]
      rw [fitBlocks_total bs m.toNat (by omega)]
    · rw [if_neg (by omega)]
      set L := ((fitBlocks bs m.toNat).flatten).length with hL
      have hLle : L ≤ m.toNat := fitBlocks_len_le bs m.toNat
      have hlen : m.toNat < (bs.flatten).length := by omega
      have hLbound : IsBoundary bs L := ⟨k, by rw [← hktake, hL]⟩
      have hcut : cutBack bs.flatten m.toNat = L := by
        apply cutBack_eq
        · exact hLle
        · intro p hp1 hp2
          have hplen : p < (bs.flatten).length := by omega
          refine ⟨hplen, ?_⟩
          by_contra hne
          have hstart : runeStart ((bs.flatten).getD p 0) = true := by
            cases hrs : runeStart ((bs.flatten).getD p 0) with
            | false => exact absurd hrs hne
            | true => rfl
          have hbd := (runeStart_iff_boundary bs hwf p hplen).mp hstart
          obtain ⟨j, hj⟩ := hbd
          have := fitBlocks_maximal bs m.toNat j (by omega)
          omega
        · by_cases hL0 : L = 0
          · exact Or.inl hL0
          · refine Or.inr ⟨by omega, ?_⟩
            exact (runeStart_iff_boundary bs hwf L (by omega)).mpr hLbound
      rw [hcut]
      by_cases hL0 : L = 0
      · rw [if_pos hL0]
        exact (List.eq_nil_of_length_eq_zero (by omega)).symm
      · rw [if_neg hL0]
        rw [hktake] at hL ⊢
        have : bs.flatten = (bs.take k).flatten ++ (bs.drop k).flatten := by
          rw [← List.flatten_append, List.take_append_drop]
        rw [this, hL]
        exact List.take_left _ _

/-- Witness for C8 at a concrete well-formed decomposition. -/
theorem truncateUTF8_codepoint_safe_witness :
    truncateUTF8ToBytes ([[228, 189, 160], [97]]).flatten 3 =
      (fitBlocks [[228, 189, 160], [97]] 3).flatten := by
  exact (truncateUTF8_codepoint_safe.2 [[228, 189, 160], [97]] 3
    (by decide) (by decide)).1

/-! Memory watchdog (src/internal/app/daemon_windows.go) -/

/-- Model of strings.TrimSpace at rune level. -/
def trimSpace (s : Str) : Str :=
  ((s.dropWhile Char.isWhitespace).reverse.dropWhile Char.isWhitespace).reverse

/-- Numeric value of a decimal digit list. -/
def digitsVal (l : Str) : Nat := l.foldl (fun a c => a * 10 + (c.toNat - 48)) 0

/-- Model of strconv.ParseUint(v, 10, 64): succeeds exactly on a non-empty
all-digit string whose value fits in 64 bits; any other input (signs,
other characters, overflow) is an error. -/
def parseUint64? (s : Str) : Option Nat :=
  if s ≠ [] ∧ s.all Char.isDigit ∧ digitsVal s < 2 ^ 64
  then some (digitsVal s) else none

/-- One MiB. -/
def mib : Nat := 1024 * 1024

/-- Model of maxAllocBytes (daemon_windows.go lines 417-436).  The
environment variable is modelled as an optional rune string, the
pointer-width distinction as the arch386 flag (runtime.GOARCH == 386). -/
def maxAllocBytes (env : Option Str) (arch386 : Bool) : Nat :=
  let dflt := if arch386 then 1200 * mib else 4096 * mib
  match env with
  | none => dflt
  | some v =>
    let t := trimSpace v
    if t ≠ [] then
      match parseUint64? t with
      | some n => if n = 0 then 0 else (if n > 16384 then 16384 else n) * mib
      | none => dflt
    else dflt

/-- The sampling loop of startQueryMonitor (daemon_windows.go lines
112-132), abstracted over the sequence of m.Alloc samples the 2-second
ticker observes: scan the samples in order and report whether the breach
action (debug.FreeOSMemory followed by cancel of the query context) fires. -/
def monitorLoop (maxAlloc : Nat) : List Nat → Bool
  | [] => false
  | s :: rest => if maxAlloc < s then true else monitorLoop maxAlloc rest

/-- Model of startQueryMonitor (daemon_windows.go lines 101-181): with a
zero ceiling the goroutine returns before starting the ticker, so the
breach action can never fire; otherwise it samples until breach or until
the query context ends (end of the sample list). -/
def startQueryMonitorCancels (maxAlloc : Nat) (samples : List Nat) : Bool :=
  if maxAlloc = 0 then false else monitorLoop maxAlloc samples

/-- C9: the watchdog ceiling is 0 (and the monitor never acts) exactly when
OFIND_MAX_ALLOC_MB parses to 0; unset or unparsable values give the
pointer-width default (1200 MiB on 386, 4096 MiB otherwise); parsed values
above 16384 are clamped to 16384 MiB; and a sample above a non-zero ceiling
fires the free-and-cancel action. -/
theorem maxAlloc_watchdog :
    (∀ env arch386, maxAllocBytes env arch386 = 0 ↔
      ∃ v, env = some v ∧ parseUint64? (trimSpace v) = some 0)
    ∧ (∀ arch386, maxAllocBytes none arch386 = if arch386 then 1200 * mib else 4096 * mib)
    ∧ (∀ v arch386, parseUint64? (trimSpace v) = none →
        maxAllocBytes (some v) arch386 = if arch386 then 1200 * mib else 4096 * mib)
    ∧ (∀ v arch386 n, parseUint64? (trimSpace v) = some n → 16384 < n →
        maxAllocBytes (some v) arch386 = 16384 * mib)
    ∧ (∀ samples, startQueryMonitorCancels 0 samples = false)
    ∧ (∀ maxAlloc s rest, maxAlloc ≠ 0 → maxAlloc < s →
        startQueryMonitorCancels maxAlloc (s :: rest) = true) := by
  have hmib : mib = 1048576 := by norm_num [mib]
  refine ⟨?_, ?_, ?_, ?_, ?_, ?_⟩
  · intro env arch386
    constructor
    · intro h
      match env with
      | none =>
        unfold maxAllocBytes at h
        simp only [hmib] at h
        split at h <;> omega
      | some v =>
        refine ⟨v, rfl, ?_⟩
        unfold maxAllocBytes at h
        simp only at h
        by_cases hne : trimSpace v ≠ []
        · rw [if_pos hne] at h
          cases hp : parseUint64? (trimSpace v) with
          | none =>
            rw [hp] at h
            simp only [hmib] at h
            exfalso
            split at h <;> omega
          | some n =>
            rw [hp] at h
            simp only at h
            by_cases hn : n = 0
            · subst hn; rfl
            · exfalso
              rw [if_neg hn] at h
              have h1 : (if n > 16384 then 16384 else n) ≠ 0 := by split <;> omega
              exact Nat.mul_ne_zero h1 (by rw [hmib]; omega) h
        · rw [if_neg hne] at h
          simp only [hmib] at h
          exfalso
          split at h <;> omega
    · rintro ⟨v, rfl, hp⟩
      have hne : trimSpace v ≠ [] := by
        intro he
        rw [he] at hp
        simp [parseUint64?] at hp
      unfold maxAllocBytes
      simp only [if_pos hne, hp]
      simp
  · intro arch386; rfl
  · intro v arch386 hp
    unfold maxAllocBytes
    simp only
    split
    · rw [hp]
    · rfl
  · intro v arch386 n hp hn
    have hne : trimSpace v ≠ [] := by
      intro he
      rw [he] at hp
      simp [parseUint64?] at hp
    unfold maxAllocBytes
    simp only [if_pos hne, hp]
    rw [if_neg (by omega), if_pos (by omega)]
  · intro samples
    simp [startQueryMonitorCancels]
  · intro maxAlloc s rest h0 hs
    unfold startQueryMonitorCancels monitorLoop
    rw [if_neg h0, if_pos hs]

/-- Witness for C9 at concrete inputs. -/
theorem maxAlloc_watchdog_witness :
    maxAllocBytes (some (" 20000 ").toList) false = 16384 * mib
    ∧ startQueryMonitorCancels (4096 * mib) [5 * 1024 * 1024 * 1024] = true := by
  constructor
  · exact maxAlloc_watchdog.2.2.2.1 (" 20000 ").toList false 20000 (by decide) (by norm_num)
  · exact maxAlloc_watchdog.2.2.2.2.2 (4096 * mib) (5 * 1024 * 1024 * 1024) []
      (by norm_num [mib]) (by norm_num [mib])

/-! UI batch handler (src/internal/app/ui_windows.go lines 415-458) -/

/-- Event kinds of the daemon output stream. -/
inductive EvType | result | status | done
deriving DecidableEq

/-- Model of daemonOut, restricted to the fields the batch handler reads. -/
structure DaemonOut where
  type : EvType
  queryId : Nat
  path : Str
  snippets : List Str
  message : Str
deriving DecidableEq

/-- Model of ResultRow as built in the result branch: the path and the
snippets joined with the separator.  Size and time formatting is pure
presentation and kept as the raw values it is computed from. -/
structure ResultRow where
  path : Str
  snippet : Str
deriving DecidableEq

/-- The state threaded through one batch: collected rows, last status
message, done flag, and the stream of outcomes of the elapsed-time check
time.Since(start) > maxUITick, consumed one per evaluation. -/
structure BatchState where
  rows : List ResultRow
  lastStatusMsg : Str
  isDone : Bool
  slow : List Bool
deriving DecidableEq

/-- maxAppendPerTick of the batch handler. -/
def maxAppendPerTick : Nat := 200

/-- One iteration of the batch loop (ui_windows.go lines 431-458): events
whose QueryID differs from the generation read at batch start are skipped;
result events append a row subject to the per-tick count and time caps;
status events record the last non-empty message; done events set the flag. -/
def processEvent (curGen : Nat) (st : BatchState) (out : DaemonOut) : BatchState :=
  if out.queryId ≠ curGen then st
  else match out.type with
    | .result =>
      if maxAppendPerTick ≤ st.rows.length then st
      else
        let isSlow := st.slow.headD false
        let rest := st.slow.tail
        if isSlow then { st with slow := rest }
        else { st with
          rows := st.rows ++ [⟨out.path, List.intercalate ("  |  ").toList out.snippets⟩],
          slow := rest }
    | .status =>
      if out.message ≠ [] then { st with lastStatusMsg := out.message } else st
    | .done => { st with isDone := true }

/-- The whole batch loop starting from the empty per-tick state. -/
def processBatch (curGen : Nat) (slow0 : List Bool) (batch : List DaemonOut) : BatchState :=
  batch.foldl (processEvent curGen) ⟨[], [], false, slow0⟩

theorem processEvent_skip {curGen : Nat} {st : BatchState} {out : DaemonOut}
    (h : out.queryId ≠ curGen) : processEvent curGen st out = st := by
  unfold processEvent
  rw [if_pos h]

theorem foldl_processEvent_filter (curGen : Nat) (batch : List DaemonOut) :
    ∀ st : BatchState,
      batch.foldl (processEvent curGen) st =
        (batch.filter (fun o => o.queryId = curGen)).foldl (processEvent curGen) st := by
  induction batch with
  | nil => intro st; rfl
  | cons o rest ih =>
    intro st
    by_cases h : o.queryId = curGen
    · simp [List.filter_cons, h, ih]
    · simp [List.filter_cons, h, processEvent_skip h, ih]

/-- C4: the batch handler delivers an event only when its QueryID equals the
generation counter read at batch start: the batch is processed exactly as if
every event of a different generation had been removed, and a batch holding
only events of other generations contributes no rows, no status message and
no done flag.  Since the generation counter only ever increases and every
event is tagged with the generation it was submitted under, every event of
an older generation is discarded. -/
theorem batch_discards_stale_generations :
    (∀ (curGen : Nat) (slow0 : List Bool) (batch : List DaemonOut),
      processBatch curGen slow0 batch =
        processBatch curGen slow0 (batch.filter (fun o => o.queryId = curGen)))
    ∧ (∀ (curGen : Nat) (slow0 : List Bool) (batch : List DaemonOut),
        (∀ o ∈ batch, o.queryId ≠ curGen) →
        processBatch curGen slow0 batch = ⟨[], [], false, slow0⟩) := by
  constructor
  · intro curGen slow0 batch
    exact foldl_processEvent_filter curGen batch _
  · intro curGen slow0 batch h
    unfold processBatch
    rw [foldl_processEvent_filter]
    have hnil : batch.filter (fun o => o.queryId = curGen) = [] := by
      rw [List.filter_eq_nil_iff]
      intro o ho
      simpa using h o ho
    rw [hnil]
    rfl

/-- Witness for C4: a stale result and a stale done event are both dropped. -/
theorem batch_discards_stale_generations_witness :
    processBatch 2 []
      [⟨.result, 1, ("a.txt").toList, [], []⟩, ⟨.done, 1, [], [], []⟩] =
      ⟨[], [], false, []⟩ := by
  exact batch_discards_stale_generations.2 2 []
    [⟨.result, 1, ("a.txt").toList, [], []⟩, ⟨.done, 1, [], [], []⟩]
    (by decide)

/-! Daemon worker matching (src/internal/app/daemon_windows.go lines 241-341)

The per-file worker body is pure given the file name and an oracle for
extract.FileFindSnippets on that file (content is fixed per file).  The two
Go loops (matchedInName precomputation, then the per-term loop) commute
into one loop because matchedInName is a pure per-term value. -/

/-- Model of strings.ToLower, simple per-rune case mapping. -/
def toLowerStr (s : Str) : Str := s.map Char.toLower

/-- Model of strings.Contains at rune level. -/
def containsStr (hay needle : Str) : Bool := (firstIdx? needle hay).isSome

/-- Name fast path (daemon_windows.go lines 257-265): a term is matched by
the base name case-sensitively or case-insensitively. -/
def matchedInName (fileName t : Str) : Bool :=
  containsStr fileName t || containsStr (toLowerStr fileName) (toLowerStr t)

/-- The tag prepended to name-matched snippets. -/
def nameTag : Str := ("文件名: ").toList

/-- The append loops guarded by len(snipsOut) >= maxTotal: append elements
one by one, stopping at the cap. -/
def appendCapped (maxTotal : Nat) (acc : List Str) : List Str → List Str
  | [] => acc
  | s :: rest =>
    if maxTotal ≤ acc.length then acc else appendCapped maxTotal (acc ++ [s]) rest

/-- The per-term loop (daemon_windows.go lines 268-302).  content is the
oracle for extract.FileFindSnippets on this file: an error, or the snippet
list.  Returns the collected snippets, the list of terms for which the
content search was invoked, and the allMatch flag. -/
def termsLoop (content : Str → Except Unit (List Str)) (fileName : Str)
    (contextLen maxSnips : Int) (maxTotal : Nat) :
    List Str → List Str → List Str → (List Str × List Str × Bool)
  | [], acc, consulted => (acc, consulted, true)
  | t :: rest, acc, consulted =>
    if matchedInName fileName t then
      termsLoop content fileName contextLen maxSnips maxTotal rest
        (appendCapped maxTotal acc
          ((FindSnippets fileName t contextLen maxSnips).map (fun s => nameTag ++ s)))
        consulted
    else
      match content t with
      | .error _ => (acc, consulted ++ [t], false)
      | .ok snips =>
        if snips = [] then (acc, consulted ++ [t], false)
        else termsLoop content fileName contextLen maxSnips maxTotal rest
          (appendCapped maxTotal acc snips) (consulted ++ [t])

/-- Model of the worker body for one candidate file: run the per-term loop;
a result event is emitted only when every term matched and at least one
snippet was collected (lines 304-331).  First component: the emitted
snippet list, or none.  Second component: the terms whose content was
searched. -/
def processFile (content : Str → Except Unit (List Str)) (fileName : Str)
    (contextLen maxSnips : Int) (maxTotal : Nat) (terms : List Str) :
    Option (List Str) × List Str :=
  let r := termsLoop content fileName contextLen maxSnips maxTotal terms [] []
  (if r.2.2 = true ∧ r.1 ≠ [] then some r.1 else none, r.2.1)

/-- A term is matched by the file: by name, or by a successful non-empty
content search. -/
def termMatched (content : Str → Except Unit (List Str)) (fileName t : Str) : Prop :=
  matchedInName fileName t = true ∨ ∃ l, content t = .ok l ∧ l ≠ []

/-- maxSnippets normalization of startSearch (lines 225-228). -/
def daemonMaxSnips (maxSnippets : Int) : Int := if maxSnippets ≤ 0 then 3 else maxSnippets

/-- maxTotal computation of startSearch (lines 229-236): the overall snippet
cap is maxSnips for a single term, and min(maxSnips * termCount, 12) for
multiple terms. -/
def daemonMaxTotal (maxSnippets : Int) (nTerms : Nat) : Nat :=
  let ms := (daemonMaxSnips maxSnippets).toNat
  if 1 < nTerms then min (ms * nTerms) 12 else ms

section WorkerLemmas

theorem termsLoop_allMatch {content fileName contextLen maxSnips maxTotal}
    {terms acc consulted a c}
    (h : termsLoop content fileName contextLen maxSnips maxTotal terms acc consulted
          = (a, c, true)) :
    ∀ t ∈ terms, termMatched content fileName t := by
  induction terms generalizing acc consulted with
  | nil => intro t ht; cases ht
  | cons u rest ih =>
    intro t ht
    unfold termsLoop at h
    by_cases hm : matchedInName fileName u
    · rw [if_pos hm] at h
      rcases List.mem_cons.mp ht with rfl | ht
      · exact Or.inl hm
      · exact ih h t ht
    · rw [if_neg hm] at h
      split at h
      · simp at h
      · rename_i snips hc
        split at h
        · simp at h
        · rename_i hs
          rcases List.mem_cons.mp ht with rfl | ht
          · exact Or.inr ⟨snips, hc, hs⟩
          · exact ih h t ht

theorem termsLoop_fail {content fileName contextLen maxSnips maxTotal}
    {terms : List Str} {t : Str} (hmem : t ∈ terms)
    (hfail : ¬ termMatched content fileName t) :
    ∀ acc consulted,
      (termsLoop content fileName contextLen maxSnips maxTotal terms acc consulted).2.2
        = false := by
  induction terms with
  | nil => cases hmem
  | cons u rest ih =>
    intro acc consulted
    unfold termsLoop
    by_cases hm : matchedInName fileName u
    · rw [if_pos hm]
      rcases List.mem_cons.mp hmem with rfl | h
      · exact absurd (Or.inl hm) hfail
      · exact ih h _ _
    · rw [if_neg hm]
      split
      · rfl
      · rename_i snips hc
        split
        · rfl
        · rename_i hs
          rcases List.mem_cons.mp hmem with rfl | h
          · exact absurd (Or.inr ⟨snips, hc, hs⟩) hfail
          · exact ih h _ _

theorem termsLoop_consulted {content fileName contextLen maxSnips maxTotal}
    {pre : List Str} {t : Str} (post : List Str)
    (hpre : ∀ u ∈ pre, termMatched content fileName u)
    (hfail : ¬ termMatched content fileName t) :
    ∀ acc consulted,
      (termsLoop content fileName contextLen maxSnips maxTotal (pre ++ t :: post)
        acc consulted).2.1
      = consulted ++ pre.filter (fun u => ¬ matchedInName fileName u) ++ [t] := by
  induction pre generalizing post with
  | nil =>
    intro acc consulted
    have hm : ¬ matchedInName fileName t = true := fun h => hfail (Or.inl h)
    simp only [List.nil_append]
    unfold termsLoop
    rw [if_neg hm]
    split
    · simp
    · rename_i snips hc
      split
      · simp
      · rename_i hs
        exact absurd (Or.inr ⟨snips, hc, hs⟩) hfail
  | cons u rest ih =>
    intro acc consulted
    have hu := hpre u (by simp)
    have hrest : ∀ x ∈ rest, termMatched content fileName x :=
      fun x hx => hpre x (by simp [hx])
    simp only [List.cons_append]
    unfold termsLoop
    by_cases hm : matchedInName fileName u
    · rw [if_pos hm]
      rw [ih post hrest _ _]
      simp [List.filter_cons, hm]
    · rw [if_neg hm]
      split
      · rename_i e hl
        rcases hu with hu | ⟨l, hl2, hlne⟩
        · exact absurd hu hm
        · rw [hl2] at hl; cases hl
      · rename_i snips hc
        split
        · rename_i hs
          rcases hu with hu | ⟨l, hl2, hlne⟩
          · exact absurd hu hm
          · rw [hl2] at hc
            injection hc with hc
            subst hc
            exact absurd hs hlne
        · rw [ih post hrest _ _]
          simp [List.filter_cons, hm]

theorem appendCapped_length_le (maxTotal : Nat) (l : List Str) :
    ∀ acc, (appendCapped maxTotal acc l).length ≤ max maxTotal acc.length := by
  induction l with
  | nil => intro acc; simp [appendCapped]
  | cons s rest ih =>
    intro acc
    unfold appendCapped
    split
    · omega
    · rename_i h
      have := ih (acc ++ [s])
      simp only [List.length_append, List.length_cons, List.length_nil] at this
      omega

theorem termsLoop_length_le {content fileName contextLen maxSnips maxTotal}
    (terms : List Str) :
    ∀ acc consulted,
      (termsLoop content fileName contextLen maxSnips maxTotal terms acc consulted).1.length
        ≤ max maxTotal acc.length := by
  induction terms with
  | nil => intro acc consulted; simp [termsLoop]
  | cons u rest ih =>
    intro acc consulted
    unfold termsLoop
    by_cases hm : matchedInName fileName u
    · rw [if_pos hm]
      have h1 := ih (appendCapped maxTotal acc
        ((FindSnippets fileName u contextLen maxSnips).map (fun s => nameTag ++ s)))
        consulted
      have h2 := appendCapped_length_le maxTotal
        ((FindSnippets fileName u contextLen maxSnips).map (fun s => nameTag ++ s)) acc
      omega
    · rw [if_neg hm]
      split
      · simp
      · rename_i snips hc
        split
        · simp
        · have h1 := ih (appendCapped maxTotal acc snips) (consulted ++ [u])
          have h2 := appendCapped_length_le maxTotal snips acc
          omega

end WorkerLemmas

/-- C5: a result event is emitted for a file only if every term is matched
by the base name or by the content search; a file with an unmatched term
yields no result; and the per-term loop stops at the first failing term:
content is consulted exactly for the non-name-matched terms up to and
including the first failure, never for any later term. -/
theorem worker_conjunctive_matching :
    (∀ content fileName contextLen maxSnips maxTotal terms snips,
      (processFile content fileName contextLen maxSnips maxTotal terms).1 = some snips →
      ∀ t ∈ terms, termMatched content fileName t)
    ∧ (∀ content fileName contextLen maxSnips maxTotal terms t, t ∈ terms →
        ¬ termMatched content fileName t →
        (processFile content fileName contextLen maxSnips maxTotal terms).1 = none)
    ∧ (∀ content fileName contextLen maxSnips maxTotal pre t post,
        (∀ u ∈ pre, termMatched content fileName u) →
        ¬ termMatched content fileName t →
        (processFile content fileName contextLen maxSnips maxTotal
          (pre ++ t :: post)).2
        = pre.filter (fun u => ¬ matchedInName fileName u) ++ [t]) := by
  refine ⟨?_, ?_, ?_⟩
  · intro content fileName contextLen maxSnips maxTotal terms snips h
    unfold processFile at h
    simp only at h
    split at h
    · rename_i hcond
      obtain ⟨hc1, _⟩ := hcond
      have hr : termsLoop content fileName contextLen maxSnips maxTotal terms [] []
          = ((termsLoop content fileName contextLen maxSnips maxTotal terms [] []).1,
             (termsLoop content fileName contextLen maxSnips maxTotal terms [] []).2.1,
             true) := by
        rw [← hc1]
      exact termsLoop_allMatch hr
    · cases h
  · intro content fileName contextLen maxSnips maxTotal terms t hmem hfail
    unfold processFile
    simp only
    have := @termsLoop_fail content fileName contextLen maxSnips maxTotal
      terms t hmem hfail [] []
    rw [if_neg]
    rintro ⟨h1, _⟩
    rw [this] at h1
    cases h1
  · intro content fileName contextLen maxSnips maxTotal pre t post hpre hfail
    unfold processFile
    simp only
    exact termsLoop_consulted post hpre hfail [] []

/-- Witness for C5: with terms invoice and 2024 where only invoice appears
in the name and the content has neither, no result is emitted, and only
2024 was content-searched. -/
theorem worker_conjunctive_matching_witness :
    (processFile (fun _ => Except.ok []) ("invoice_a.txt").toList 30 3 6
      [("invoice").toList, ("2024").toList]).1 = none := by
  exact worker_conjunctive_matching.2.1 (fun _ => Except.ok [])
    ("invoice_a.txt").toList 30 3 6 [("invoice").toList, ("2024").toList]
    ("2024").toList (by decide)
    (by
      rintro (h | ⟨l, hl, hlne⟩)
      · revert h; decide
      · cases hl; exact hlne rfl)

/-- C6 amended: the snippet count of one emitted result is at most maxTotal,
where maxTotal is maxSnippets for a single term and
min(maxSnippets times termCount, 12) for two or more terms; the absolute
ceiling 12 therefore applies only to multi-term queries. -/
theorem result_snippet_cap (content : Str → Except Unit (List Str))
    (fileName : Str) (contextLen maxSnippets : Int) (terms : List Str)
    (snips : List Str)
    (h : (processFile content fileName contextLen (daemonMaxSnips maxSnippets)
          (daemonMaxTotal maxSnippets terms.length) terms).1 = some snips) :
    snips.length ≤ daemonMaxTotal maxSnippets terms.length
    ∧ (1 < terms.length → daemonMaxTotal maxSnippets terms.length ≤ 12) := by
  constructor
  · unfold processFile at h
    simp only at h
    split at h
    · have hlen := @termsLoop_length_le content fileName contextLen
        (daemonMaxSnips maxSnippets) (daemonMaxTotal maxSnippets terms.length)
        terms [] []
      have : snips = (termsLoop content fileName contextLen (daemonMaxSnips maxSnippets)
          (daemonMaxTotal maxSnippets terms.length) terms [] []).1 := by
        injection h with h'
        exact h'.symm
      rw [this]
      simpa using hlen
    · cases h
  · intro hn
    unfold daemonMaxTotal
    rw [if_pos hn]
    omega

/-- Counterexample to C6 as stated: a single-term query with maxSnippets 13
emits a result carrying 13 snippets, exceeding the absolute ceiling 12;
the cap of 12 is only applied when there are at least two terms. -/
theorem result_snippet_cap_counterexample :
    ((processFile (fun _ => Except.error ()) ("aaaaaaaaaaaaaaa.txt").toList 0
        (daemonMaxSnips 13) (daemonMaxTotal 13 1) [[Char.ofNat 97]]).1.map
      List.length) = some 13 ∧ ¬ (13 ≤ 12) := by
  constructor
  · decide
  · decide

/-- Witness for C6 amended at a concrete multi-term input. -/
theorem result_snippet_cap_witness :
    ∃ snips, (processFile (fun _ => Except.ok [("x").toList])
        ("aaaa.txt").toList 0 (daemonMaxSnips 3) (daemonMaxTotal 3 2)
        [[Char.ofNat 97], [Char.ofNat 122]]).1 = some snips
      ∧ snips.length ≤ daemonMaxTotal 3 2 := by
  cases hr : (processFile (fun _ => Except.ok [("x").toList])
      ("aaaa.txt").toList 0 (daemonMaxSnips 3) (daemonMaxTotal 3 2)
      [[Char.ofNat 97], [Char.ofNat 122]]).1 with
  | none => exact absurd hr (by decide)
  | some snips =>
    exact ⟨snips, rfl, (result_snippet_cap (fun _ => Except.ok [("x").toList])
      ("aaaa.txt").toList 0 3 [[Char.ofNat 97], [Char.ofNat 122]] snips hr).1⟩

/-! Extraction cache (src/internal/cache/cache.go)

The on-disk store is modelled as a map from the cache key (the sha1-derived
shard path, opaque and deterministic per absolute path) to the entry a
successful write left behind: the 16-byte little-endian header fields and
the bytes the gzip payload decompresses to.  The gzip round trip and the
little-endian header round trip are identities and are not re-modelled.
os.Stat of the searched file is passed in as the fingerprint pair. -/

/-- The (size, modification-time nanoseconds) fingerprint of a file. -/
structure Stat where
  size : Int
  mtimeNano : Int

/-- One cache file: header fields plus the stored text bytes. -/
structure CacheEntry where
  mtimeNano : Int
  size : Int
  data : List Nat

/-- The cache directory, as a map from key to entry. -/
def CacheStore := String → Option CacheEntry

/-- A cache directory with no entries. -/
def emptyStore : CacheStore := fun _ => none

/-- Model of effectiveMaxTextBytes (cache.go lines 23-28). -/
def effectiveMaxTextBytes (maxTextBytes : Int) : Int :=
  if 0 < maxTextBytes then maxTextBytes else 2 * 1024 * 1024

/-- The hard cap applied to extracted text before use and before persisting
(cache.go lines 74-78 and 117-120). -/
def capText (maxTextBytes : Int) (text : List Nat) : List Nat :=
  let maxBytes := effectiveMaxTextBytes maxTextBytes
  if maxBytes < (text.length : Int) then truncateUTF8ToBytes text maxBytes else text

/-- Model of tryRead (cache.go lines 83-114): missing file is a miss; a
header whose size or mtime differs from the current fingerprint is a miss;
otherwise the payload is returned, clamped to maxBytes bytes by the
LimitReader. -/
def tryRead (maxTextBytes : Int) (store : CacheStore) (key : String)
    (size mtimeNano : Int) : Option (List Nat) :=
  match store key with
  | none => none
  | some e =>
    if e.size ≠ size ∨ e.mtimeNano ≠ mtimeNano then none
    else some (e.data.take (effectiveMaxTextBytes maxTextBytes).toNat)

/-- Model of a successful write (cache.go lines 116-153): truncate once
more, then atomically replace the entry for this key. -/
def cacheWrite (maxTextBytes : Int) (store : CacheStore) (key : String)
    (st : Stat) (text : List Nat) : CacheStore :=
  fun k => if k = key then some ⟨st.mtimeNano, st.size, capText maxTextBytes text⟩
           else store k

/-- Model of GetOrExtract (cache.go lines 53-81) for a stat-able regular
file: on hit return the cached text, otherwise run the extractor, cap the
text, persist it and return it.  The Bool records whether the extractor was
invoked. -/
def getOrExtract (maxTextBytes : Int) (store : CacheStore) (key : String)
    (st : Stat) (extractor : Except Unit (List Nat)) :
    Except Unit (List Nat × CacheStore × Bool) :=
  match tryRead maxTextBytes store key st.size st.mtimeNano with
  | some text => .ok (text, store, false)
  | none =>
    match extractor with
    | .error e => .error e
    | .ok text0 => .ok (capText maxTextBytes text0,
        cacheWrite maxTextBytes store key st text0, true)

section CacheLemmas

theorem cutBack_le (s : List Nat) : ∀ start, cutBack s start ≤ start := by
  intro start
  induction start with
  | zero => simp [cutBack]
  | succ c ih =>
    unfold cutBack
    split
    · omega
    · omega

theorem truncateUTF8_length_le (s : List Nat) (maxBytes : Int)
    (hpos : 0 < maxBytes) (hlt : maxBytes < (s.length : Int)) :
    ((truncateUTF8ToBytes s maxBytes).length : Int) ≤ maxBytes := by
  unfold truncateUTF8ToBytes
  rw [if_neg (by omega)]
  split
  · simp
    omega
  · have h1 := cutBack_le s maxBytes.toNat
    have h2 := List.length_take (cutBack s maxBytes.toNat) s
    simp only [h2]
    omega

theorem capText_length_le (maxTextBytes : Int) (text : List Nat) :
    ((capText maxTextBytes text).length : Int) ≤ effectiveMaxTextBytes maxTextBytes := by
  have hpos : 0 < effectiveMaxTextBytes maxTextBytes := by
    unfold effectiveMaxTextBytes
    split <;> omega
  unfold capText
  simp only
  split
  · rename_i hlt
    exact truncateUTF8_length_le text _ hpos hlt
  · omega

theorem capText_take (maxTextBytes : Int) (text : List Nat) :
    (capText maxTextBytes text).take (effectiveMaxTextBytes maxTextBytes).toNat
      = capText maxTextBytes text := by
  apply List.take_of_length_le
  have := capText_length_le maxTextBytes text
  omega

end CacheLemmas

/-- C3: after GetOrExtract produces text for a path, a later GetOrExtract
with the same fingerprint is a hit: it returns the same text, leaves the
store unchanged and does not invoke the extractor; with a fingerprint
differing in size or in mtime it is a miss, not an error: the extractor is
invoked again and its (capped) output is returned and stored. -/
theorem cache_fingerprint_roundtrip (maxTextBytes : Int) (store : CacheStore)
    (key : String) (st : Stat) (ext : Except Unit (List Nat))
    (text : List Nat) (store2 : CacheStore) (invoked : Bool)
    (h : getOrExtract maxTextBytes store key st ext = .ok (text, store2, invoked)) :
    (∀ ext2, getOrExtract maxTextBytes store2 key st ext2 = .ok (text, store2, false))
    ∧ (∀ (st2 : Stat) (t2 : List Nat),
        st2.size ≠ st.size ∨ st2.mtimeNano ≠ st.mtimeNano →
        getOrExtract maxTextBytes store2 key st2 (.ok t2)
          = .ok (capText maxTextBytes t2,
                 cacheWrite maxTextBytes store2 key st2 t2, true)) := by
  have hwrite : ∀ (store0 : CacheStore) (st0 : Stat) (t0 : List Nat),
      cacheWrite maxTextBytes store0 key st0 t0 key
        = some ⟨st0.mtimeNano, st0.size, capText maxTextBytes t0⟩ := by
    intro store0 st0 t0
    unfold cacheWrite
    rw [if_pos rfl]
  unfold getOrExtract at h
  cases htr : tryRead maxTextBytes store key st.size st.mtimeNano with
  | some t =>
    rw [htr] at h
    simp only [Except.ok.injEq, Prod.mk.injEq] at h
    obtain ⟨h1, h2, _⟩ := h
    subst h1
    subst h2
    have hentry : ∃ e, store key = some e ∧ e.size = st.size
        ∧ e.mtimeNano = st.mtimeNano := by
      unfold tryRead at htr
      cases hk : store key with
      | none => rw [hk] at htr; cases htr
      | some e =>
        rw [hk] at htr
        simp only at htr
        split at htr
        · cases htr
        · rename_i hcond
          push_neg at hcond
          exact ⟨e, rfl, hcond.1, hcond.2⟩
    constructor
    · intro ext2
      unfold getOrExtract
      rw [htr]
    · intro st2 t2 hdiff
      obtain ⟨e, hk, hes, hem⟩ := hentry
      have htr2 : tryRead maxTextBytes store key st2.size st2.mtimeNano = none := by
        unfold tryRead
        rw [hk]
        simp only
        rw [if_pos]
        rcases hdiff with hd | hd
        · exact Or.inl (by rw [hes]; exact fun he => hd he.symm)
        · exact Or.inr (by rw [hem]; exact fun he => hd he.symm)
      unfold getOrExtract
      rw [htr2]
  | none =>
    rw [htr] at h
    cases hext : ext with
    | error e => rw [hext] at h; cases h
    | ok text0 =>
      rw [hext] at h
      simp only [Except.ok.injEq, Prod.mk.injEq] at h
      obtain ⟨h1, h2, _⟩ := h
      subst h1
      subst h2
      constructor
      · intro ext2
        have htr2 : tryRead maxTextBytes (cacheWrite maxTextBytes store key st text0)
            key st.size st.mtimeNano = some (capText maxTextBytes text0) := by
          unfold tryRead
          rw [hwrite]
          simp only
          rw [if_neg (by push_neg; exact ⟨rfl, rfl⟩)]
          rw [capText_take]
        unfold getOrExtract
        rw [htr2]
      · intro st2 t2 hdiff
        have htr2 : tryRead maxTextBytes (cacheWrite maxTextBytes store key st text0)
            key st2.size st2.mtimeNano = none := by
          unfold tryRead
          rw [hwrite]
          simp only
          rw [if_pos]
          rcases hdiff with hd | hd
          · exact Or.inl (fun he => hd he.symm)
          · exact Or.inr (fun he => hd he.symm)
        unfold getOrExtract
        rw [htr2]

/-- Witness for C3: write then read back at an unchanged fingerprint. -/
theorem cache_fingerprint_roundtrip_witness :
    getOrExtract 100 (cacheWrite 100 emptyStore "k" ⟨5, 7⟩ [97, 98]) "k" ⟨5, 7⟩
        (.error ())
      = .ok ([97, 98], cacheWrite 100 emptyStore "k" ⟨5, 7⟩ [97, 98], false) := by
  exact (cache_fingerprint_roundtrip 100 emptyStore "k" ⟨5, 7⟩ (.ok [97, 98])
    (capText 100 [97, 98]) (cacheWrite 100 emptyStore "k" ⟨5, 7⟩ [97, 98]) true
    rfl).1 (.error ())

/-! Stream matcher (src/unnamed/part_004)

The pull-based chunk source is modelled as the list of fragments still to
be delivered; next returns the head, or io.EOF when the list is empty
(other source errors are out of scope of the claims).  The cancellation
context is modelled as an oracle Ctx indexed by the running count of
ctx.Err() checks; a real context is monotone but no theorem needs that. -/

/-- Cancellation oracle: the value of ctx.Err() != nil at the n-th check. -/
def Ctx := Nat → Bool

/-- A context that is never cancelled. -/
def noCancel : Ctx := fun _ => false

/-- A context cancelled from the start. -/
def cancelledCtx : Ctx := fun _ => true

/-- Errors surfaced by the stream matcher. -/
inductive StreamErr
  | queryEmpty
  | cancelled
deriving DecidableEq

instance {ε α : Type} [DecidableEq ε] [DecidableEq α] : DecidableEq (Except ε α) :=
  fun a b =>
    match a, b with
    | .error e1, .error e2 =>
      if h : e1 = e2 then isTrue (by rw [h]) else isFalse (by intro hc; cases hc; exact h rfl)
    | .ok v1, .ok v2 =>
      if h : v1 = v2 then isTrue (by rw [h]) else isFalse (by intro hc; cases hc; exact h rfl)
    | .error _, .ok _ => isFalse (by intro hc; cases hc)
    | .ok _, .error _ => isFalse (by intro hc; cases hc)

/-- The tail retention bound (part_004 line 27): left context plus a full
query spanning a boundary plus a safety margin. -/
def keepRunes (q : Str) (C : Nat) : Nat := C + q.length + 8

/-- Model of hasEnoughRightContext (part_004 lines 204-215). -/
def hasEnoughRightContext (s : Str) (fromIdx C : Nat) : Bool :=
  decide (C = 0) || decide (C ≤ s.length - min fromIdx s.length)

/-- Model of tailRunes (part_004 lines 185-202): the suffix of s holding at
most n runes. -/
def tailRunes (s : Str) (n : Int) : Str :=
  if n ≤ 0 ∨ s = [] then []
  else if (s.length : Int) ≤ n then s
  else s.drop (s.length - n.toNat)

/-- The pull-more-right-context loop shared by streamFindFirst (lines
58-73) and streamFindSnippets (lines 134-150): while the right context is
short, check cancellation, pull a fragment (EOF breaks with the eof flag),
skip empty fragments, and append.  Returns the extended text, the
remaining fragments, the check counter and the eof flag. -/
def fillRight (ctx : Ctx) (C matchEnd : Nat) :
    Nat → Str → List Str → Except StreamErr (Str × List Str × Nat × Bool)
  | t, fullText, [] =>
    if hasEnoughRightContext fullText matchEnd C then .ok (fullText, [], t, false)
    else if ctx t then .error .cancelled
    else .ok (fullText, [], t + 1, true)
  | t, fullText, c :: rest =>
    if hasEnoughRightContext fullText matchEnd C then .ok (fullText, c :: rest, t, false)
    else if ctx t then .error .cancelled
    else if c = [] then fillRight ctx C matchEnd (t + 1) fullText rest
    else fillRight ctx C matchEnd (t + 1) (fullText ++ c) rest

/-- The main loop of streamFindFirst (part_004 lines 30-86): check
cancellation, pull (EOF means not found), skip empty fragments, search the
retained tail plus the new fragment, and on a hit extend the right context
and build the snippet. -/
def streamFindFirstLoop (ctx : Ctx) (q : Str) (C keep : Nat) :
    Nat → Str → List Str → Except StreamErr (Bool × Str)
  | t, _, [] =>
    if ctx t then .error .cancelled else .ok (false, [])
  | t, prevTail, c :: rest =>
    if ctx t then .error .cancelled
    else if c = [] then streamFindFirstLoop ctx q C keep (t + 1) prevTail rest
    else
      (firstIdx? q (prevTail ++ c)).elim
        (streamFindFirstLoop ctx q C keep (t + 1)
          (tailRunes (prevTail ++ c) (keep : Int)) rest)
        (fun idx =>
          (fillRight ctx C (idx + q.length) (t + 1) (prevTail ++ c) rest).map
            (fun r => (true, snippetAt r.1 q C idx)))

/-- Model of streamFindFirst (part_004 lines 15-87). -/
def streamFindFirst (ctx : Ctx) (chunks : List Str) (q : Str)
    (contextLen : Int) : Except StreamErr (Bool × Str) :=
  if trimSpace q = [] then .error .queryEmpty
  else
    let C := (if contextLen < 0 then 0 else contextLen).toNat
    streamFindFirstLoop ctx q C (keepRunes q C) 0 [] chunks

/-- The in-window scan of streamFindSnippets (part_004 lines 123-174): rem
is maxSnippets minus the snippets collected, which strictly decreases at
every appended snippet.  Returns either the final snippet list (cap hit or
EOF during context fill) or the state with which the outer loop resumes. -/
def snipsInner (ctx : Ctx) (q : Str) (C maxS : Nat) :
    Nat → Nat → Str → Nat → List Str → List Str →
      Except StreamErr ((List Str) ⊕ (Nat × Str × List Str × List Str))
  | 0, _, _, _, acc, _ => .ok (.inl acc)
  | rem + 1, t, searchText, searchFrom, acc, chunks =>
    match firstIdx? q (searchText.drop searchFrom) with
    | none => .ok (.inr (t, searchText, chunks, acc))
    | some idx =>
      match fillRight ctx C (searchFrom + idx + q.length) t searchText chunks with
      | .error e => .error e
      | .ok (fullText, chunks2, t2, eof) =>
        if eof then .ok (.inl (acc ++ [snippetAt fullText q C (searchFrom + idx)]))
        else snipsInner ctx q C maxS rem t2 fullText
          (if searchFrom + idx + q.length ≤ searchFrom then searchFrom + 1
           else searchFrom + idx + q.length)
          (acc ++ [snippetAt fullText q C (searchFrom + idx)]) chunks2

/-- The outer loop of streamFindSnippets (part_004 lines 105-181).  fuel
bounds the number of outer iterations; every iteration either returns or
consumes the head fragment, so fuel = fragment count + 1 never runs out. -/
def snipsOuter (ctx : Ctx) (q : Str) (C keep maxS : Nat) :
    Nat → Nat → Str → List Str → List Str → Except StreamErr (List Str)
  | 0, _, _, acc, _ => .ok acc
  | fuel + 1, t, prevTail, acc, chunks =>
    if ctx t then .error .cancelled
    else match chunks with
      | [] => .ok acc
      | c :: rest =>
        if c = [] then snipsOuter ctx q C keep maxS fuel (t + 1) prevTail acc rest
        else
          match snipsInner ctx q C maxS (maxS - acc.length) (t + 1)
              (prevTail ++ c) 0 acc rest with
          | .error e => .error e
          | .ok (.inl acc2) => .ok acc2
          | .ok (.inr (t2, searchText2, chunks2, acc2)) =>
            snipsOuter ctx q C keep maxS fuel t2
              (tailRunes searchText2 (keep : Int)) acc2 chunks2

/-- Model of streamFindSnippets (part_004 lines 90-183). -/
def streamFindSnippets (ctx : Ctx) (chunks : List Str) (q : Str)
    (contextLen maxSnippets : Int) : Except StreamErr (List Str) :=
  if trimSpace q = [] then .error .queryEmpty
  else
    let ms := (if maxSnippets ≤ 0 then 1 else maxSnippets).toNat
    let C := (if contextLen < 0 then 0 else contextLen).toNat
    snipsOuter ctx q C (keepRunes q C) ms (chunks.length + 1) 0 [] [] chunks

/-- C7: the streaming matchers check the cancellation token before every
fragment pull; under a cancelled token they return the cancellation error,
with found = false and no snippet for streamFindFirst and a nil snippet
list for streamFindSnippets — never a partial result.  The last conjunct
shows a run cancelled mid-stream after a snippet was already collected:
the collected snippet is discarded and only the cancellation error is
returned. -/
theorem stream_cancellation :
    (∀ chunks q (contextLen : Int), trimSpace q ≠ [] →
      streamFindFirst cancelledCtx chunks q contextLen = .error .cancelled)
    ∧ (∀ chunks q (contextLen maxSnippets : Int), trimSpace q ≠ [] →
        streamFindSnippets cancelledCtx chunks q contextLen maxSnippets
          = .error .cancelled)
    ∧ streamFindSnippets (fun t => decide (1 ≤ t)) [("ab").toList]
        ([Char.ofNat 97]) 0 5 = .error .cancelled := by
  refine ⟨?_, ?_, ?_⟩
  · intro chunks q contextLen hq
    unfold streamFindFirst
    rw [if_neg hq]
    cases chunks with
    | nil => rfl
    | cons c rest => rfl
  · intro chunks q contextLen maxSnippets hq
    unfold streamFindSnippets
    rw [if_neg hq]
    unfold snipsOuter
    rfl
  · decide

/-- Witness for C7, mirroring the cancelled-context unit test of the
source: a cancelled context yields the cancellation error at once. -/
theorem stream_cancellation_witness :
    streamFindFirst cancelledCtx [("hello").toList] ("he").toList 1
      = .error .cancelled := by
  exact stream_cancellation.1 [("hello").toList] ("he").toList 1 (by decide)

section TailLemmas

theorem tailRunes_suffix (s : Str) (n : Int) : tailRunes s n <:+ s := by
  unfold tailRunes
  split
  · exact List.nil_suffix
  · split
    · exact List.suffix_rfl
    · exact List.drop_suffix _ s

theorem tailRunes_length_le (s : Str) (n : Int) :
    (tailRunes s n).length ≤ n.toNat := by
  unfold tailRunes
  split
  · simp
  · rename_i h
    push_neg at h
    split
    · rename_i h2
      omega
    · rename_i h2
      push_neg at h2
      simp only [List.length_drop]
      omega

end TailLemmas

/-- C10: tailRunes always returns a suffix of its argument holding at most
n runes; consequently the retained buffer of the stream matchers — seeded
empty and rewritten to tailRunes(prevTail ++ chunk, keepRunes) before every
pull after the first — is always a suffix of the text seen so far holding
at most contextLen + runeCount(query) + 8 runes, independent of document
size. -/
theorem stream_tail_bounded :
    (∀ (s : Str) (n : Int), tailRunes s n <:+ s ∧ (tailRunes s n).length ≤ n.toNat)
    ∧ (∀ (q : Str) (C : Nat) (chunks : List Str),
        (chunks.foldl (fun tl c => tailRunes (tl ++ c) ((keepRunes q C : Nat) : Int)) [])
          <:+ chunks.flatten
        ∧ (chunks.foldl (fun tl c => tailRunes (tl ++ c) ((keepRunes q C : Nat) : Int)) []).length
            ≤ C + q.length + 8) := by
  constructor
  · intro s n
    exact ⟨tailRunes_suffix s n, tailRunes_length_le s n⟩
  · intro q C chunks
    have key : ∀ (chunks : List Str) (init X : Str), init <:+ X →
        (chunks.foldl (fun tl c => tailRunes (tl ++ c) ((keepRunes q C : Nat) : Int)) init)
          <:+ X ++ chunks.flatten ∧
        (chunks = [] →
          (chunks.foldl (fun tl c => tailRunes (tl ++ c) ((keepRunes q C : Nat) : Int)) init)
            = init) := by
      intro chunks
      induction chunks with
      | nil =>
        intro init X h
        constructor
        · simpa using h
        · intro _; rfl
      | cons c rest ih =>
        intro init X h
        simp only [List.foldl_cons, List.flatten_cons]
        constructor
        · have h1 : tailRunes (init ++ c) ((keepRunes q C : Nat) : Int) <:+ X ++ c := by
            have h2 : init ++ c <:+ X ++ c := by
              obtain ⟨p, rfl⟩ := h
              exact ⟨p, by simp⟩
            exact (tailRunes_suffix _ _).trans h2
          have h3 := (ih (tailRunes (init ++ c) ((keepRunes q C : Nat) : Int)) (X ++ c) h1).1
          simpa [List.append_assoc] using h3
        · intro hc; cases hc
    have hlen : ∀ (chunks : List Str) (init : Str),
        init.length ≤ C + q.length + 8 →
        (chunks.foldl (fun tl c => tailRunes (tl ++ c) ((keepRunes q C : Nat) : Int)) init).length
          ≤ C + q.length + 8 := by
      intro chunks
      induction chunks with
      | nil => intro init h; simpa using h
      | cons c rest ih =>
        intro init h
        simp only [List.foldl_cons]
        apply ih
        have := tailRunes_length_le (init ++ c) ((keepRunes q C : Nat) : Int)
        have hk : ((keepRunes q C : Nat) : Int).toNat = C + q.length + 8 := by
          unfold keepRunes
          omega
        omega
    refine ⟨?_, hlen chunks [] (by simp)⟩
    have := (key chunks [] [] List.suffix_rfl).1
    simpa using this

/-- Witness for C10 is not needed for the universally quantified statement,
but the fold at a concrete fragmentation stays bounded. -/
theorem stream_tail_bounded_witness :
    ([("abcwo").toList, ("rld").toList, ("efg").toList].foldl
        (fun tl c => tailRunes (tl ++ c) ((keepRunes ("world").toList 2 : Nat) : Int)) [])
      <:+ ("abcworldefg").toList := by
  have h := (stream_tail_bounded.2 ("world").toList 2
    [("abcwo").toList, ("rld").toList, ("efg").toList]).1
  simpa using h

/-! Chunk-boundary equivalence of the stream matcher (claim on
streamFindFirst versus FindSnippets with maxSnippets 1) -/

section StreamEquivalence

theorem slice_shift (X : Str) (a u v : Nat) :
    slice (X.drop a) u v = slice X (a + u) (a + v) := by
  unfold slice
  rw [List.take_drop, List.drop_drop]

theorem slice_eq_of_pre {F G : Str} (h : F <+: G) {x b : Nat} (hb : b ≤ F.length) :
    slice F x b = slice G x b := by
  unfold slice
  have hF : F = G.take F.length := List.prefix_iff_eq_take.mp h
  conv_lhs => rw [hF]
  rw [List.take_take, min_eq_left hb]

theorem prefix_append_left {q A : Str} (B : Str) (h : q <+: A) : q <+: A ++ B :=
  h.trans (List.prefix_append A B)

theorem prefix_of_prefix_append {q A B : Str} (h : q <+: A ++ B)
    (hlen : q.length ≤ A.length) : q <+: A := by
  have h1 : q = (A ++ B).take q.length := List.prefix_iff_eq_take.mp h
  rw [List.take_append_of_le_length hlen] at h1
  rw [h1]
  exact List.take_prefix _ _

theorem occurs_append_iff {q X : Str} (Y : Str) {p : Nat}
    (hle : p + q.length ≤ X.length) :
    (q <+: (X ++ Y).drop p ↔ q <+: X.drop p) := by
  have hp : p ≤ X.length := by omega
  rw [List.drop_append_of_le_length hp]
  constructor
  · intro h
    apply prefix_of_prefix_append h
    simp only [List.length_drop]
    omega
  · intro h
    exact prefix_append_left Y h

theorem tailRunes_eq_drop (s : Str) (k : Nat) (hk : 1 ≤ k) :
    tailRunes s (k : Int) = s.drop (s.length - k) := by
  by_cases hs : s = []
  · subst hs
    unfold tailRunes
    rw [if_pos (Or.inr rfl)]
    simp
  · unfold tailRunes
    rw [if_neg (by push_neg; exact ⟨by omega, hs⟩)]
    split
    · rename_i h
      have h0 : s.length - k = 0 := by omega
      rw [h0, List.drop_zero]
    · rename_i h
      have h0 : ((k : Nat) : Int).toNat = k := by omega
      rw [h0]

theorem flatten_take_pre (l : List Str) (m : Nat) :
    (l.take m).flatten <+: l.flatten := by
  conv_rhs => rw [← List.take_append_drop m l]
  rw [List.flatten_append]
  exact List.prefix_append _ _

theorem append_prefix_append {A P Q : Str} (h : P <+: Q) : A ++ P <+: A ++ Q := by
  obtain ⟨r, rfl⟩ := h
  exact ⟨r, by simp⟩

/-- With an uncancelled context, the fill-right-context loop succeeds and
returns the window extended by a prefix of the remaining fragments, until
either the right context is long enough or the source is exhausted. -/
theorem fillRight_noCancel (C matchEnd : Nat) :
    ∀ (chunks : List Str) (t : Nat) (fullText : Str),
      ∃ m t2 eof rest2,
        fillRight noCancel C matchEnd t fullText chunks
          = .ok (fullText ++ (chunks.take m).flatten, rest2, t2, eof)
        ∧ m ≤ chunks.length
        ∧ (hasEnoughRightContext (fullText ++ (chunks.take m).flatten) matchEnd C = true
            ∨ m = chunks.length) := by
  intro chunks
  induction chunks with
  | nil =>
    intro t fullText
    by_cases he : hasEnoughRightContext fullText matchEnd C
    · refine ⟨0, t, false, [], ?_, by simp, Or.inl (by simpa using he)⟩
      unfold fillRight
      rw [if_pos he]
      simp
    · refine ⟨0, t + 1, true, [], ?_, by simp, Or.inr rfl⟩
      unfold fillRight
      rw [if_neg he]
      simp [noCancel]
  | cons c rest ih =>
    intro t fullText
    by_cases he : hasEnoughRightContext fullText matchEnd C
    · refine ⟨0, t, false, c :: rest, ?_, by simp, Or.inl (by simpa using he)⟩
      unfold fillRight
      rw [if_pos he]
      simp
    · by_cases hc : c = []
      · obtain ⟨m, t2, eof, rest2, heq, hm, hp⟩ := ih (t + 1) fullText
        refine ⟨m + 1, t2, eof, rest2, ?_, by simp; omega, ?_⟩
        · unfold fillRight
          rw [if_neg he]
          have hnc : ¬ (noCancel t = true) := by simp [noCancel]
          rw [if_neg hnc, if_pos hc, heq]
          subst hc
          simp
        · rcases hp with hp | hp
          · left
            subst hc
            simpa using hp
          · right
            simp [hp]
      · obtain ⟨m, t2, eof, rest2, heq, hm, hp⟩ := ih (t + 1) (fullText ++ c)
        refine ⟨m + 1, t2, eof, rest2, ?_, by simp; omega, ?_⟩
        · unfold fillRight
          rw [if_neg he]
          have hnc : ¬ (noCancel t = true) := by simp [noCancel]
          rw [if_neg hnc, if_neg hc, heq]
          simp
        · rcases hp with hp | hp
          · left
            simpa [List.append_assoc] using hp
          · right
            simp [hp]

theorem noCancel_false (t : Nat) : ¬ (noCancel t = true) := by simp [noCancel]

/-- A snippet built inside a window F starting at text offset a equals the
snippet built on the whole text, provided the window reaches far enough on
both sides: on the left the clamp only fires when the window starts at the
text start (a = 0) or the match is more than C runes into the window; on
the right the window either holds C runes past the match or extends to the
end of the text. -/
theorem snippetAt_shift (T F q : Str) (C a idx : Nat)
    (hq : q ≠ [])
    (hF : F <+: T.drop a)
    (hocc : q <+: F.drop idx)
    (hlb : a = 0 ∨ C < idx)
    (hen : C ≤ F.length - (idx + q.length) ∨ F = T.drop a) :
    snippetAt F q C idx = snippetAt T q C (a + idx) := by
  have hq1 : 1 ≤ q.length := List.length_pos.mpr hq
  have hlenF : idx + q.length ≤ F.length := length_le_of_prefix_drop hq hocc
  have hFlen : F.length ≤ T.length - a := by
    have h := hF.length_le
    simpa only [List.length_drop] using h
  have haT : a ≤ T.length := by omega
  have h1 : slice F (idx - C) idx = slice T (a + idx - C) (a + idx) := by
    calc slice F (idx - C) idx
        = slice (T.drop a) (idx - C) idx := slice_eq_of_pre hF (by omega)
      _ = slice T (a + (idx - C)) (a + idx) := slice_shift T a (idx - C) idx
      _ = slice T (a + idx - C) (a + idx) := by
          congr 1
          omega
  have h2 : slice F idx (idx + q.length) = slice T (a + idx) (a + idx + q.length) := by
    calc slice F idx (idx + q.length)
        = slice (T.drop a) idx (idx + q.length) := slice_eq_of_pre hF hlenF
      _ = slice T (a + idx) (a + (idx + q.length)) := slice_shift T a idx (idx + q.length)
      _ = slice T (a + idx) (a + idx + q.length) := by rw [Nat.add_assoc]
  have h3 : slice F (idx + q.length) (min (idx + q.length + C) F.length)
      = slice T (a + idx + q.length) (min (a + idx + q.length + C) T.length) := by
    rcases hen with hen | hen
    · have he1 : min (idx + q.length + C) F.length = idx + q.length + C := by omega
      have he2 : min (a + idx + q.length + C) T.length = a + idx + q.length + C := by
        omega
      rw [he1, he2]
      calc slice F (idx + q.length) (idx + q.length + C)
          = slice (T.drop a) (idx + q.length) (idx + q.length + C) :=
            slice_eq_of_pre hF (by omega)
        _ = slice T (a + (idx + q.length)) (a + (idx + q.length + C)) :=
            slice_shift T a (idx + q.length) (idx + q.length + C)
        _ = slice T (a + idx + q.length) (a + idx + q.length + C) := by
            congr 1 <;> omega
    · subst hen
      have hlen2 : (T.drop a).length = T.length - a := List.length_drop a T
      calc slice (T.drop a) (idx + q.length) (min (idx + q.length + C) (T.drop a).length)
          = slice T (a + (idx + q.length))
              (a + min (idx + q.length + C) (T.drop a).length) :=
            slice_shift T a (idx + q.length) _
        _ = slice T (a + idx + q.length) (min (a + idx + q.length + C) T.length) := by
            congr 1
            · omega
            · rw [hlen2]
              omega
  unfold snippetAt moveLeftRunes moveRightRunes
  simp only
  have hm1 : min idx F.length = idx := by omega
  have hm2 : min (idx + q.length) F.length = idx + q.length := by omega
  have hm1T : min (a + idx) T.length = a + idx := by omega
  have hm2T : min (a + idx + q.length) T.length = a + idx + q.length := by omega
  rw [hm1, hm2, hm1T, hm2T, h1, h2, h3]

/-- Main invariant of the streamFindFirst loop under an uncancelled
context: if prevTail is the last keep runes of the text seen so far and no
occurrence of q ends inside the seen text, the loop computes the answer of
a whole-text first-occurrence search. -/
theorem streamFindFirstLoop_eq (q : Str) (C keep : Nat)
    (hq : q ≠ []) (hkeep : C + q.length + 1 ≤ keep) :
    ∀ (chunks : List Str), (∀ c ∈ chunks, c ≠ []) →
    ∀ (seen : Str) (t : Nat),
      (∀ p, p + q.length ≤ seen.length → ¬ q <+: (seen ++ chunks.flatten).drop p) →
      streamFindFirstLoop noCancel q C keep t (seen.drop (seen.length - keep)) chunks
        = .ok ((firstIdx? q (seen ++ chunks.flatten)).elim ((false : Bool), ([] : Str))
            (fun i => (true, snippetAt (seen ++ chunks.flatten) q C i))) := by
  have hq1 : 1 ≤ q.length := List.length_pos.mpr hq
  intro chunks
  induction chunks with
  | nil =>
    intro _ seen t hnom
    simp only [List.flatten_nil, List.append_nil] at hnom ⊢
    have hno : firstIdx? q seen = none := by
      cases hfi : firstIdx? q seen with
      | none => rfl
      | some i =>
        exfalso
        have hocc := firstIdx?_some_occurs hfi
        exact hnom i (length_le_of_prefix_drop hq hocc) hocc
    rw [hno]
    unfold streamFindFirstLoop
    rw [if_neg (noCancel_false t)]
    rw [Option.elim_none]
  | cons c rest ih =>
    intro hne seen t hnom
    have hc : c ≠ [] := hne c (by simp)
    have hne2 : ∀ x ∈ rest, x ≠ [] := fun x hx => hne x (by simp [hx])
    have ha_le : seen.length - keep ≤ seen.length := by omega
    have hwin : seen.drop (seen.length - keep) ++ c
        = (seen ++ c).drop (seen.length - keep) := by
      rw [List.drop_append_of_le_length ha_le]
    have hT : seen ++ (c :: rest).flatten = (seen ++ c) ++ rest.flatten := by
      simp [List.append_assoc]
    rw [hT] at hnom ⊢
    unfold streamFindFirstLoop
    rw [if_neg (noCancel_false t), if_neg hc, hwin]
    cases hfi : firstIdx? q ((seen ++ c).drop (seen.length - keep)) with
    | none =>
      rw [Option.elim_none]
      have htail : tailRunes ((seen ++ c).drop (seen.length - keep)) ((keep : Nat) : Int)
          = (seen ++ c).drop ((seen ++ c).length - keep) := by
        rw [tailRunes_eq_drop _ keep (by omega), List.drop_drop]
        congr 1
        simp only [List.length_drop, List.length_append]
        omega
      rw [htail]
      apply ih hne2 (seen ++ c) (t + 1)
      intro p hp
      by_cases hps : p + q.length ≤ seen.length
      · exact hnom p hps
      · intro hocc
        have hpc : p + q.length ≤ (seen ++ c).length := by
          simpa using hp
        have hpw : q <+: (seen ++ c).drop p :=
          (occurs_append_iff rest.flatten hpc).mp hocc
        have hwin_occ : q <+: ((seen ++ c).drop (seen.length - keep)).drop
            (p - (seen.length - keep)) := by
          rw [List.drop_drop]
          have harith : (seen.length - keep) + (p - (seen.length - keep)) = p := by
            omega
          rw [harith]
          exact hpw
        exact firstIdx?_none hfi _ hwin_occ
    | some idx =>
      have hoccW := firstIdx?_some_occurs hfi
      have hminW := firstIdx?_some_min hfi
      have hlenW := length_le_of_prefix_drop hq hoccW
      have hlenW2 : (seen.length - keep) + idx + q.length ≤ (seen ++ c).length := by
        simp only [List.length_drop] at hlenW
        omega
      have hg_occ : q <+: (seen ++ c).drop ((seen.length - keep) + idx) := by
        have h := hoccW
        rw [List.drop_drop] at h
        exact h
      have hend : seen.length < (seen.length - keep) + idx + q.length := by
        by_contra hle
        push_neg at hle
        exact hnom _ (by omega)
          ((occurs_append_iff rest.flatten (by omega)).mpr hg_occ)
      have hfirstT : firstIdx? q ((seen ++ c) ++ rest.flatten)
          = some ((seen.length - keep) + idx) := by
        apply firstIdx?_eq_some_of_first
        · exact (occurs_append_iff rest.flatten (by omega)).mpr hg_occ
        · intro p hp hocc
          by_cases hps : p + q.length ≤ seen.length
          · exact hnom p hps hocc
          · have hpc : p + q.length ≤ (seen ++ c).length := by omega
            have hpw := (occurs_append_iff rest.flatten hpc).mp hocc
            have hwin_occ : q <+: ((seen ++ c).drop (seen.length - keep)).drop
                (p - (seen.length - keep)) := by
              rw [List.drop_drop]
              have harith : (seen.length - keep) + (p - (seen.length - keep)) = p := by
                omega
              rw [harith]
              exact hpw
            exact hminW (p - (seen.length - keep)) (by omega) hwin_occ
      rw [hfirstT, Option.elim_some, Option.elim_some]
      obtain ⟨m, t2, eof, rest2, hfr, hm, hpp⟩ :=
        fillRight_noCancel C (idx + q.length) rest (t + 1)
          ((seen ++ c).drop (seen.length - keep))
      rw [hfr]
      have hmap : (Except.ok ((seen ++ c).drop (seen.length - keep)
              ++ (rest.take m).flatten, rest2, t2, eof) :
            Except StreamErr (Str × List Str × Nat × Bool)).map
          (fun r => (true, snippetAt r.1 q C idx))
          = .ok (true, snippetAt ((seen ++ c).drop (seen.length - keep)
              ++ (rest.take m).flatten) q C idx) := rfl
      rw [hmap]
      have hdropT : ((seen ++ c) ++ rest.flatten).drop (seen.length - keep)
          = (seen ++ c).drop (seen.length - keep) ++ rest.flatten := by
        rw [List.drop_append_of_le_length (by simp; omega)]
      have hshift : snippetAt ((seen ++ c).drop (seen.length - keep)
            ++ (rest.take m).flatten) q C idx
          = snippetAt ((seen ++ c) ++ rest.flatten) q C ((seen.length - keep) + idx) := by
        apply snippetAt_shift _ _ _ C (seen.length - keep) idx hq
        · rw [hdropT]
          exact append_prefix_append (flatten_take_pre rest m)
        · rw [List.drop_append_of_le_length (by omega)]
          exact prefix_append_left _ hoccW
        · by_cases ha0 : seen.length - keep = 0
          · exact Or.inl ha0
          · refine Or.inr ?_
            omega
        · rcases hpp with hpp | hpp
          · left
            unfold hasEnoughRightContext at hpp
            simp only [Bool.or_eq_true, decide_eq_true_eq] at hpp
            have hlenF : idx + q.length ≤ ((seen ++ c).drop (seen.length - keep)
                ++ (rest.take m).flatten).length := by
              simp only [List.length_append]
              omega
            rcases hpp with hpp | hpp
            · omega
            · omega
          · right
            rw [hpp, List.take_length, hdropT]
      rw [hshift]

theorem trimSpace_nil : trimSpace ([] : Str) = [] := rfl

theorem ne_nil_of_trim {q : Str} (h : trimSpace q ≠ []) : q ≠ [] := by
  intro hq
  subst hq
  exact h trimSpace_nil

/-- FindSnippets with maxSnippets 1 returns exactly the snippet of the
first occurrence, or nothing. -/
theorem findSnippets_one (T q : Str) (C : Int) (hq : q ≠ []) (hC : 0 ≤ C) :
    FindSnippets T q C 1
      = (firstIdx? q T).elim [] (fun i => [snippetAt T q C.toNat i]) := by
  by_cases hT : T = []
  · subst hT
    have hno : firstIdx? q [] = none := by
      unfold firstIdx?
      rw [if_neg hq]
    rw [hno]
    unfold FindSnippets
    rw [if_pos (Or.inr rfl)]
    rfl
  · unfold FindSnippets
    simp only
    rw [if_neg (by omega : ¬ (C < 0)), if_neg (by norm_num : ¬ ((1 : Int) ≤ 0)),
      if_neg (by push_neg; exact ⟨hq, hT⟩)]
    have h1 : ((1 : Int)).toNat = 1 := rfl
    rw [h1]
    cases hfi : firstIdx? q T with
    | none =>
      unfold findSnippetsLoop
      rw [if_pos (by omega : (0 : Nat) ≤ T.length), List.drop_zero, hfi]
      rfl
    | some i =>
      unfold findSnippetsLoop
      rw [if_pos (by omega : (0 : Nat) ≤ T.length), List.drop_zero, hfi]
      simp only [Option.elim_some, Nat.zero_add]
      rfl

/-- C1 amended: for every text, every term that is non-empty after
whitespace trimming, every context length and every split of the text into
non-empty fragments, the streaming matcher returns the same found-flag and
the same snippet as the single-shot matcher with maxSnippets 1 on the whole
text.  (For a non-empty term that is all whitespace the two sides disagree:
see the counterexample.) -/
theorem stream_single_shot_equiv (T q : Str) (C : Int) (chunks : List Str)
    (hC : 0 ≤ C) (hq : trimSpace q ≠ []) (hne : ∀ c ∈ chunks, c ≠ [])
    (hT : chunks.flatten = T) :
    streamFindFirst noCancel chunks q C
      = .ok (match FindSnippets T q C 1 with
             | [] => (false, [])
             | s :: _ => (true, s)) := by
  have hqne : q ≠ [] := ne_nil_of_trim hq
  have hq1 : 1 ≤ q.length := List.length_pos.mpr hqne
  subst hT
  unfold streamFindFirst
  rw [if_neg hq]
  simp only
  rw [if_neg (by omega : ¬ (C < 0))]
  have hloop := streamFindFirstLoop_eq q C.toNat (keepRunes q C.toNat) hqne
    (by unfold keepRunes; omega) chunks hne [] 0
    (by
      intro p hp
      simp only [List.length_nil] at hp
      omega)
  simp only [List.length_nil, List.drop_nil, List.nil_append] at hloop
  rw [hloop]
  rw [findSnippets_one chunks.flatten q C hqne hC]
  cases hfi : firstIdx? q chunks.flatten with
  | none => rfl
  | some i => rfl

/-- Counterexample to C1 as stated: the term consisting of one space is
non-empty, yet the streaming matcher rejects it (its trimmed form is
empty) while the single-shot matcher happily matches it, so the two sides
do not return the same found-flag. -/
theorem stream_single_shot_counterexample :
    streamFindFirst noCancel [("a b").toList] ([' ']) 0 = .error .queryEmpty
    ∧ FindSnippets ("a b").toList ([' ']) 0 1 = [[bracketL, ' ', bracketR]] := by
  constructor
  · decide
  · decide

/-- Witness for C1 amended at the concrete example of the specification:
fragments abcwo, rld, efg with term world and context 2 yield the snippet
bc【world】ef on both sides. -/
theorem stream_single_shot_equiv_witness :
    streamFindFirst noCancel [("abcwo").toList, ("rld").toList, ("efg").toList]
        ("world").toList 2
      = .ok (true, ("bc【world】ef").toList) := by
  have h := stream_single_shot_equiv ("abcworldefg").toList ("world").toList 2
    [("abcwo").toList, ("rld").toList, ("efg").toList]
    (by norm_num) (by decide) (by decide) (by decide)
  rw [h]
  decide

end StreamEquivalence

end OFind
